import Mathlib

/-!
Shallow embedding of `src/melody-generator.ts` (random-melody repository).

Numbers: the rhythm pool `{1, 1/2, 1/4, 1/8, 1/16}` and every quantity the
generator derives from it are dyadic rationals that IEEE doubles represent
exactly, so durations, times and random draws are modelled as `ℚ`.
32-bit integer operations of the seeded PRNG (`Math.imul`, `^`, `|`, shifts,
`>>> 0`) are modelled on `ℕ` with explicit `% 2^32`; signed and unsigned
JavaScript views of a 32-bit pattern agree modulo `2^32`, which is all the
algorithm observes.  The random source is an explicit stream `ℕ → ℚ`
together with a cursor that each draw advances, and the one unbounded
`while` loop is given explicit fuel, returning `none` on exhaustion.
-/

namespace RandomMelody

/-- `2^32`, the modulus of all JavaScript 32-bit integer coercions. -/
def M32 : ℕ := 4294967296

/-- `Math.imul`: 32-bit integer multiplication (bit pattern, unsigned view). -/
def imul (a b : ℕ) : ℕ := a * b % M32

/-- One step of the `xmur3` string-hash fold:
`h = imul(h ^ c, 3432918353); h = (h << 13) | (h >>> 19)` (a 32-bit rotate). -/
def xmur3Step (h c : ℕ) : ℕ :=
  let h1 := imul (h ^^^ c) 3432918353
  (h1 <<< 13) % M32 ||| h1 >>> 19

/-- `xmur3(str)` followed by one call of the returned closure: fold the
character codes into `h` starting from `1779033703 ^ str.length`, then apply
the finalising avalanche. -/
def xmur3Hash (s : List ℕ) : ℕ :=
  let h := s.foldl xmur3Step (1779033703 ^^^ s.length)
  let h1 := imul (h ^^^ h >>> 16) 2246822507
  let h2 := imul (h1 ^^^ h1 >>> 13) 3266489909
  h2 ^^^ h2 >>> 16

/-- The output side of one `mulberry32` call, from the updated state `a`:
`t = imul(a ^ (a >>> 15), a | 1); t ^= t + imul(t ^ (t >>> 7), t | 61);
return ((t ^ (t >>> 14)) >>> 0) / 4294967296`. -/
def mulberry32Out (a : ℕ) : ℚ :=
  let t1 := imul (a ^^^ a >>> 15) (a ||| 1)
  let t2 := t1 ^^^ (t1 + imul (t1 ^^^ t1 >>> 7) (t1 ||| 61)) % M32
  ((t2 ^^^ t2 >>> 14 : ℕ) : ℚ) / 4294967296

/-- `mulberry32(a0)` as a stream: the `n`-th draw first advances the state by
`0x6D2B79F5` (so the state for draw `n` is `a0 + (n+1) * 0x6D2B79F5` mod `2^32`)
and then produces the output of that state. -/
def mulberry32Stream (a0 : ℕ) (n : ℕ) : ℚ :=
  mulberry32Out ((a0 + (n + 1) * 0x6D2B79F5) % M32)

/-- `makePRNG(seed?)`: a missing seed (`undefined`) or an empty string is
falsy in JavaScript, so both select the non-reproducible fallback
(`Math.random`, modelled as an ambient stream); otherwise the seeded
`mulberry32(xmur3(seed)())` stream is returned. -/
def makePRNG (seed : Option (List ℕ)) (ambient : ℕ → ℚ) : ℕ → ℚ :=
  match seed with
  | none => ambient
  | some s => if s = [] then ambient else mulberry32Stream (xmur3Hash s)

/-- The twelve sharp-spelled pitch-class names. -/
def SHARP_NOTE_ORDER : List String :=
  ["C", "C#", "D", "D#", "E", "F"] ++ ["F#", "G", "G#", "A", "A#", "B"]

/-- `midiToName`: pitch class by JavaScript `%` (sign of the dividend),
octave by `Math.floor(midi / 12) - 1`; an out-of-table index yields
`undefined` in JavaScript, which stringifies to `"undefined"`. -/
def midiToName (midi : ℤ) : String :=
  let pc := Int.tmod midi 12
  let octave := Int.fdiv midi 12 - 1
  (if 0 ≤ pc then SHARP_NOTE_ORDER.getD pc.toNat "undefined" else "undefined")
    ++ toString octave

/-- `clamp(n, lo, hi) = Math.max(lo, Math.min(hi, n))`. -/
def clamp (n lo hi : ℤ) : ℤ := max lo (min hi n)

/-- `EPS = 1e-6` of the rhythm partitioner. -/
def EPS : ℚ := 1 / 1000000

/-- `RHYTHM_POOL = [1.0, 0.5, 0.25, 0.125, 0.0625]`. -/
def RHYTHM_POOL : List ℚ := [1, 1/2, 1/4, 1/8, 1/16]

/-- The `while (used < 1 - EPS)` loop of `generateMeasureDurations`, with
explicit fuel (`none` on exhaustion, which the real loop never reaches for
the default pool).  Each iteration filters the pool to the values that still
fit, takes the safety-net break if none do, and otherwise draws one
candidate with `Math.floor(rand() * candidates.length)`. -/
def loopGo (f : ℕ → ℚ) (pool : List ℚ) :
    ℕ → ℕ → ℚ → List ℚ → Option (List ℚ × ℕ)
  | 0, _, _, _ => none
  | fuel + 1, i, used, durations =>
    if used < 1 - EPS then
      let remaining := 1 - used
      let candidates := pool.filter fun v => decide (v ≤ remaining + EPS)
      if candidates.length = 0 then
        some (durations ++ [remaining], i)
      else
        let idx := (⌊f i * (candidates.length : ℚ)⌋).toNat
        let val := candidates.getD idx 0
        loopGo f pool fuel (i + 1) (used + val) (durations ++ [val])
    else
      some (durations, i)

/-- The same loop with the numerical safety net removed: when the candidate
subset is empty it fails instead of pushing `remaining`.  Agreement with
`loopGo` expresses that the safety-net branch is unreachable. -/
def loopGoStrict (f : ℕ → ℚ) (pool : List ℚ) :
    ℕ → ℕ → ℚ → List ℚ → Option (List ℚ × ℕ)
  | 0, _, _, _ => none
  | fuel + 1, i, used, durations =>
    if used < 1 - EPS then
      let remaining := 1 - used
      let candidates := pool.filter fun v => decide (v ≤ remaining + EPS)
      if candidates.length = 0 then
        none
      else
        let idx := (⌊f i * (candidates.length : ℚ)⌋).toNat
        let val := candidates.getD idx 0
        loopGoStrict f pool fuel (i + 1) (used + val) (durations ++ [val])
    else
      some (durations, i)

/-- The final snapping step of `generateMeasureDurations`: if the summed
durations differ from 1 by more than `EPS`, add the signed difference to the
last duration (on an empty array the JavaScript write to index `-1` leaves
the array empty). -/
def snapDurations (durations : List ℚ) : List ℚ :=
  let diff := 1 - durations.sum
  if EPS < |diff| then
    match durations with
    | [] => []
    | _ :: _ => durations.dropLast ++ [durations.getLast?.getD 0 + diff]
  else durations

/-- `generateMeasureDurations(rand, pool)`: run the partition loop from
`used = 0` and snap the result; also returns the advanced draw cursor. -/
def generateMeasureDurations (fuel : ℕ) (f : ℕ → ℚ) (i : ℕ) (pool : List ℚ) :
    Option (List ℚ × ℕ) :=
  match loopGo f pool fuel i 0 [] with
  | none => none
  | some (durations, i') => some (snapDurations durations, i')

/-- The step-delta table `[-2, -1, 1, 2]` of `nextMidi`. -/
def stepChoices : List ℤ := [-2, -1, 1, 2]

/-- The leap-delta table `[-7, -5, 5, 7]` of `nextMidi`. -/
def leapChoices : List ℤ := [-7, -5, 5, 7]

/-- `nextMidi(rand, current, low, high)`: one draw decides step vs leap
(`stepProb = 0.8`), a second draw indexes the chosen table, and an
out-of-range candidate is clamped (the comment says "reflect" but the code
clamps).  Both branches consume exactly two draws. -/
def nextMidi (f : ℕ → ℚ) (i : ℕ) (current low high : ℤ) : ℤ × ℕ :=
  let stepProb : ℚ := 8/10
  let delta : ℤ :=
    if f i < stepProb then
      stepChoices.getD (⌊f (i + 1) * (stepChoices.length : ℚ)⌋).toNat 0
    else
      leapChoices.getD (⌊f (i + 1) * (leapChoices.length : ℚ)⌋).toNat 0
  let candidate := current + delta
  if candidate < low ∨ candidate > high then (clamp candidate low high, i + 2)
  else (candidate, i + 2)

/-- A `Note` event: MIDI pitch, derived name, start and duration in beats. -/
structure Note where
  midi : ℤ
  name : String
  startBeats : ℚ
  durationBeats : ℚ
deriving DecidableEq, Inhabited

/-- The generation parameters (`Params` of the source). -/
structure Params where
  measures : ℕ
  tempo : ℤ
  seed : Option (List ℕ)
  lowMidi : ℤ
  highMidi : ℤ

/-- The inner `for (const frac of dursWholeFractions)` loop of
`generateMelody`: advance the pitch, convert the fraction to beats (`× 4`),
append the event and advance the time cursor. -/
def emitNotes (f : ℕ → ℚ) (low high : ℤ) :
    List ℚ → ℕ → ℤ → ℚ → List Note → ℕ × ℤ × ℚ × List Note
  | [], i, cur, t, acc => (i, cur, t, acc)
  | frac :: rest, i, cur, t, acc =>
    let nxt := nextMidi f i cur low high
    let durationBeats := frac * 4
    emitNotes f low high rest nxt.2 nxt.1 (t + durationBeats)
      (acc ++ [{ midi := nxt.1, name := midiToName nxt.1,
                 startBeats := t, durationBeats := durationBeats }])

/-- The outer `for (let bar = 0; ...)` loop of `generateMelody`: one call to
the rhythm partitioner per measure, then the inner emission loop. -/
def genBars (fuel : ℕ) (f : ℕ → ℚ) (low high : ℤ) :
    ℕ → ℕ → ℤ → ℚ → List Note → Option (List Note)
  | 0, _, _, _, acc => some acc
  | bars + 1, i, cur, t, acc =>
    match generateMeasureDurations fuel f i RHYTHM_POOL with
    | none => none
    | some (durs, i') =>
      match emitNotes f low high durs i' cur t acc with
      | (i2, cur2, t2, acc2) => genBars fuel f low high bars i2 cur2 t2 acc2

/-- `generateMelody(params)`: build the PRNG from the optional seed, start
at `clamp(60, low, high)` with the time cursor at 0, and run the bar loop. -/
def generateMelody (fuel : ℕ) (ambient : ℕ → ℚ) (p : Params) :
    Option (List Note) :=
  let rand := makePRNG p.seed ambient
  genBars fuel rand p.lowMidi p.highMidi p.measures 0
    (clamp 60 p.lowMidi p.highMidi) 0 []

/-- `beatsToDurationString(beats)`: the literal lookup table, with the
tick fallback `"T" + Math.round(beats * 128)`. -/
def beatsToDurationString (beats : ℚ) : String :=
  if beats = 0 then "T0"
  else if beats = 1/2 then "8"
  else if beats = 1 then "4"
  else if beats = 3/2 then "d4"
  else if beats = 2 then "2"
  else if beats = 3 then "d2"
  else if beats = 4 then "1"
  else
    let ticks := round (beats * 128)
    "T" ++ toString ticks

/-- The set of beat values the duration table covers. -/
def tableBeats : List ℚ := [0, 1/2, 1, 3/2, 2, 3, 4]

/-- A random source is valid when every draw lies in `[0, 1)`. -/
def validRand (f : ℕ → ℚ) : Prop := ∀ n, 0 ≤ f n ∧ f n < 1

/-- Clamping to the nearest bound, as the specification describes it. -/
def hardClamp (c lo hi : ℤ) : ℤ := if c < lo then lo else if hi < c then hi else c

/-- Contiguity from a start time: each note starts where the previous ended. -/
def chainedFrom : ℚ → List Note → Prop
  | _, [] => True
  | t, n :: rest => n.startBeats = t ∧ chainedFrom (t + n.durationBeats) rest

/-- Total duration in beats of a note list. -/
def sumDur (l : List Note) : ℚ := (l.map Note.durationBeats).sum

/-- The all-zero draw stream (a valid random source). -/
def rand0 : ℕ → ℚ := fun _ => 0

/-- The constant one-half draw stream (a valid random source). -/
def randHalf : ℕ → ℚ := fun _ => 1/2

/-- Default-style parameters with one measure and no seed. -/
def p0 : Params := ⟨1, 100, none, 55, 76⟩

/-- One measure with seed `"hello"` (character codes). -/
def pHello : Params := ⟨1, 110, some [104, 101, 108, 108, 111], 55, 76⟩

/-- One measure with an explicitly empty seed string. -/
def pEmptySeed : Params := ⟨1, 100, some [], 55, 76⟩

/-- The melody `generateMelody` produces from the all-zero stream on `p0`. -/
def mel0 : List Note := [{ midi := 58, name := "A#3", startBeats := 0, durationBeats := 4 }]

end RandomMelody

namespace RandomMelody

/-! ## Helper lemmas -/

theorem validRand_rand0 : validRand rand0 := by
  intro n; constructor
  · exact le_refl 0
  · norm_num [rand0]

theorem validRand_randHalf : validRand randHalf := by
  intro n; constructor
  · norm_num [randHalf]
  · norm_num [randHalf]

theorem loopGo_succ (f : ℕ → ℚ) (pool : List ℚ) (fuel i : ℕ) (used : ℚ)
    (durations : List ℚ) :
    loopGo f pool (fuel + 1) i used durations =
      if used < 1 - EPS then
        if (pool.filter fun v => decide (v ≤ 1 - used + EPS)).length = 0 then
          some (durations ++ [1 - used], i)
        else
          loopGo f pool fuel (i + 1)
            (used + (pool.filter fun v => decide (v ≤ 1 - used + EPS)).getD
              (⌊f i * (((pool.filter fun v => decide (v ≤ 1 - used + EPS)).length : ℕ) : ℚ)⌋).toNat 0)
            (durations ++ [(pool.filter fun v => decide (v ≤ 1 - used + EPS)).getD
              (⌊f i * (((pool.filter fun v => decide (v ≤ 1 - used + EPS)).length : ℕ) : ℚ)⌋).toNat 0])
      else some (durations, i) := rfl

theorem loopGoStrict_succ (f : ℕ → ℚ) (pool : List ℚ) (fuel i : ℕ) (used : ℚ)
    (durations : List ℚ) :
    loopGoStrict f pool (fuel + 1) i used durations =
      if used < 1 - EPS then
        if (pool.filter fun v => decide (v ≤ 1 - used + EPS)).length = 0 then
          none
        else
          loopGoStrict f pool fuel (i + 1)
            (used + (pool.filter fun v => decide (v ≤ 1 - used + EPS)).getD
              (⌊f i * (((pool.filter fun v => decide (v ≤ 1 - used + EPS)).length : ℕ) : ℚ)⌋).toNat 0)
            (durations ++ [(pool.filter fun v => decide (v ≤ 1 - used + EPS)).getD
              (⌊f i * (((pool.filter fun v => decide (v ≤ 1 - used + EPS)).length : ℕ) : ℚ)⌋).toNat 0])
      else some (durations, i) := rfl

theorem getD_mem_of_lt {α : Type} {l : List α} {n : ℕ} (d : α) (h : n < l.length) :
    l.getD n d ∈ l := by
  rw [List.getD_eq_getElem l d h]; exact List.getElem_mem h

theorem floor_toNat_lt {r : ℚ} {n : ℕ} (h1 : 0 ≤ r) (h2 : r < 1) (hn : 0 < n) :
    (⌊r * (n : ℚ)⌋).toNat < n := by
  have h0 : (0 : ℚ) < (n : ℚ) := by exact_mod_cast hn
  have hfl0 : 0 ≤ ⌊r * (n : ℚ)⌋ := Int.floor_nonneg.mpr (mul_nonneg h1 (le_of_lt h0))
  have hflt : ⌊r * (n : ℚ)⌋ < (n : ℤ) := by
    apply Int.floor_lt.mpr
    push_cast
    calc r * (n : ℚ) < 1 * (n : ℚ) := mul_lt_mul_of_pos_right h2 h0
    _ = (n : ℚ) := one_mul _
  omega

/-- The central invariant of the rhythm partition loop with the default pool:
starting from `used = k/16` with `k ≤ 16` and enough fuel, the loop (and its
safety-net-free variant, with the same result) terminates, fills exactly the
remaining `1 - k/16`, and appends at least one value whenever `k < 16`. -/
theorem loopGo_default (f : ℕ → ℚ) (hf : validRand f) :
    ∀ (fuel k i : ℕ) (acc : List ℚ), k ≤ 16 → 16 - k < fuel →
      ∃ ds i',
        loopGo f RHYTHM_POOL fuel i ((k : ℚ) / 16) acc = some (ds, i') ∧
        loopGoStrict f RHYTHM_POOL fuel i ((k : ℚ) / 16) acc = some (ds, i') ∧
        ds.sum = acc.sum + (1 - (k : ℚ) / 16) ∧
        acc.length ≤ ds.length ∧
        (k < 16 → acc.length < ds.length) := by
  intro fuel
  induction fuel with
  | zero => intro k i acc hk hfuel; omega
  | succ fuel ih =>
    intro k i acc hk hfuel
    by_cases hcond : ((k : ℚ) / 16) < 1 - EPS
    · -- the loop body runs
      have hk15 : k ≤ 15 := by
        by_contra hne
        have hk16 : k = 16 := by omega
        subst hk16
        rw [EPS] at hcond
        norm_num at hcond
      have hkQ : ((k : ℚ)) ≤ 15 := by exact_mod_cast hk15
      -- the candidate list is nonempty: 1/16 always fits
      have hmem : (1/16 : ℚ) ∈
          RHYTHM_POOL.filter fun v => decide (v ≤ 1 - (k : ℚ) / 16 + EPS) := by
        apply List.mem_filter.mpr
        constructor
        · norm_num [RHYTHM_POOL]
        · apply decide_eq_true
          rw [EPS]
          linarith
      have hCpos : 0 < (RHYTHM_POOL.filter
          fun v => decide (v ≤ 1 - (k : ℚ) / 16 + EPS)).length :=
        List.length_pos.mpr (List.ne_nil_of_mem hmem)
      have hidx : (⌊f i * (((RHYTHM_POOL.filter
          fun v => decide (v ≤ 1 - (k : ℚ) / 16 + EPS)).length : ℕ) : ℚ)⌋).toNat <
          (RHYTHM_POOL.filter fun v => decide (v ≤ 1 - (k : ℚ) / 16 + EPS)).length :=
        floor_toNat_lt (hf i).1 (hf i).2 hCpos
      have hvmem : ((RHYTHM_POOL.filter fun v => decide (v ≤ 1 - (k : ℚ) / 16 + EPS)).getD
          (⌊f i * (((RHYTHM_POOL.filter
            fun v => decide (v ≤ 1 - (k : ℚ) / 16 + EPS)).length : ℕ) : ℚ)⌋).toNat 0) ∈
          RHYTHM_POOL.filter fun v => decide (v ≤ 1 - (k : ℚ) / 16 + EPS) :=
        getD_mem_of_lt 0 hidx
      have hvpool := (List.mem_filter.mp hvmem).1
      have hvle : ((RHYTHM_POOL.filter fun v => decide (v ≤ 1 - (k : ℚ) / 16 + EPS)).getD
          (⌊f i * (((RHYTHM_POOL.filter
            fun v => decide (v ≤ 1 - (k : ℚ) / 16 + EPS)).length : ℕ) : ℚ)⌋).toNat 0) ≤
          1 - (k : ℚ) / 16 + EPS :=
        of_decide_eq_true (List.mem_filter.mp hvmem).2
      -- name the drawn value
      set val := (RHYTHM_POOL.filter fun v => decide (v ≤ 1 - (k : ℚ) / 16 + EPS)).getD
          (⌊f i * (((RHYTHM_POOL.filter
            fun v => decide (v ≤ 1 - (k : ℚ) / 16 + EPS)).length : ℕ) : ℚ)⌋).toNat 0 with hvaldef
      have hj : ∃ j : ℕ, 1 ≤ j ∧ val = (j : ℚ) / 16 := by
        simp only [RHYTHM_POOL, List.mem_cons, List.not_mem_nil, or_false] at hvpool
        rcases hvpool with h | h | h | h | h
        · exact ⟨16, by norm_num, by rw [h]; norm_num⟩
        · exact ⟨8, by norm_num, by rw [h]; norm_num⟩
        · exact ⟨4, by norm_num, by rw [h]; norm_num⟩
        · exact ⟨2, by norm_num, by rw [h]; norm_num⟩
        · exact ⟨1, by norm_num, by rw [h]; norm_num⟩
      obtain ⟨j, hj1, hjval⟩ := hj
      have hkj : k + j ≤ 16 := by
        have hq : ((k + j : ℕ) : ℚ) < 17 := by
          rw [hjval, EPS] at hvle
          push_cast
          linarith
        have : (k + j : ℕ) < 17 := by exact_mod_cast hq
        omega
      have hused : (k : ℚ) / 16 + val = (((k + j : ℕ) : ℕ) : ℚ) / 16 := by
        rw [hjval]
        push_cast
        ring
      obtain ⟨ds, i', ihA, ihB, ihsum, ihlen, ihlt⟩ :=
        ih (k + j) (i + 1) (acc ++ [val]) hkj (by omega)
      refine ⟨ds, i', ?_, ?_, ?_, ?_, ?_⟩
      · rw [loopGo_succ, if_pos hcond, if_neg (by omega), ← hvaldef, hused]
        exact ihA
      · rw [loopGoStrict_succ, if_pos hcond, if_neg (by omega), ← hvaldef, hused]
        exact ihB
      · rw [ihsum, List.sum_append, List.sum_cons, List.sum_nil, hjval]
        push_cast
        ring
      · rw [List.length_append] at ihlen
        simp only [List.length_cons, List.length_nil] at ihlen
        omega
      · intro _
        rw [List.length_append] at ihlen
        simp only [List.length_cons, List.length_nil] at ihlen
        omega
    · -- the loop exits: `used` is already 1
      have hk16 : k = 16 := by
        by_contra hne
        have hk15 : k ≤ 15 := by omega
        apply hcond
        have hkQ : ((k : ℚ)) ≤ 15 := by exact_mod_cast hk15
        rw [EPS]
        linarith
      subst hk16
      refine ⟨acc, i, ?_, ?_, ?_, le_refl _, by omega⟩
      · rw [loopGo_succ, if_neg hcond]
      · rw [loopGoStrict_succ, if_neg hcond]
      · norm_num

theorem snapDurations_of_sum_one {ds : List ℚ} (h : ds.sum = 1) :
    snapDurations ds = ds := by
  unfold snapDurations
  rw [h]
  norm_num [EPS]

/-- The loop, started as `generateMeasureDurations` starts it, terminates with
a nonempty list summing to exactly 1 (so the snap is the identity on it). -/
theorem measure_default (f : ℕ → ℚ) (hf : validRand f) (fuel : ℕ)
    (hfuel : 17 ≤ fuel) (i : ℕ) :
    ∃ ds i', loopGo f RHYTHM_POOL fuel i 0 [] = some (ds, i') ∧
      loopGoStrict f RHYTHM_POOL fuel i 0 [] = some (ds, i') ∧
      ds.sum = 1 ∧ 0 < ds.length := by
  obtain ⟨ds, i', h1, h2, h3, _, h5⟩ :=
    loopGo_default f hf fuel 0 i [] (by omega) (by omega)
  rw [Nat.cast_zero, zero_div] at h1 h2 h3
  refine ⟨ds, i', h1, h2, ?_, ?_⟩
  · rw [h3, List.sum_nil]; ring
  · simpa using h5 (by omega)

theorem generateMeasureDurations_default (f : ℕ → ℚ) (hf : validRand f)
    (fuel : ℕ) (hfuel : 17 ≤ fuel) (i : ℕ) :
    ∃ ds i', generateMeasureDurations fuel f i RHYTHM_POOL = some (ds, i') ∧
      ds.sum = 1 ∧ ds ≠ [] := by
  obtain ⟨ds, i', h1, _, h3, h4⟩ := measure_default f hf fuel hfuel i
  refine ⟨ds, i', ?_, h3, List.length_pos.mp h4⟩
  unfold generateMeasureDurations
  rw [h1]
  show some (snapDurations ds, i') = some (ds, i')
  rw [snapDurations_of_sum_one h3]

end RandomMelody

namespace RandomMelody

/-! ## Melody assembly lemmas -/

theorem emitNotes_cons (f : ℕ → ℚ) (low high : ℤ) (frac : ℚ) (rest : List ℚ)
    (i : ℕ) (cur : ℤ) (t : ℚ) (acc : List Note) :
    emitNotes f low high (frac :: rest) i cur t acc =
      emitNotes f low high rest (nextMidi f i cur low high).2
        (nextMidi f i cur low high).1 (t + frac * 4)
        (acc ++ [{ midi := (nextMidi f i cur low high).1,
                   name := midiToName (nextMidi f i cur low high).1,
                   startBeats := t, durationBeats := frac * 4 }]) := rfl

theorem emitNotes_length (f : ℕ → ℚ) (low high : ℤ) :
    ∀ (durs : List ℚ) (i : ℕ) (cur : ℤ) (t : ℚ) (acc : List Note),
      ((emitNotes f low high durs i cur t acc).2.2.2).length
        = acc.length + durs.length := by
  intro durs
  induction durs with
  | nil => intro i cur t acc; simp [emitNotes]
  | cons frac rest ih =>
    intro i cur t acc
    rw [emitNotes_cons, ih]
    simp only [List.length_append, List.length_cons, List.length_nil]
    omega

theorem sumDur_snoc (acc : List Note) (n : Note) :
    sumDur (acc ++ [n]) = sumDur acc + n.durationBeats := by
  simp [sumDur]

theorem chainedFrom_snoc :
    ∀ (acc : List Note) (s : ℚ) (n : Note),
      chainedFrom s acc → n.startBeats = s + sumDur acc →
      chainedFrom s (acc ++ [n]) := by
  intro acc
  induction acc with
  | nil =>
    intro s n _ hst
    refine ⟨?_, trivial⟩
    simpa [sumDur] using hst
  | cons m rest ih =>
    intro s n hch hst
    obtain ⟨h1, h2⟩ := hch
    refine ⟨h1, ih (s + m.durationBeats) n h2 ?_⟩
    rw [hst]
    simp [sumDur]
    ring

theorem emitNotes_chained (f : ℕ → ℚ) (low high : ℤ) :
    ∀ (durs : List ℚ) (i : ℕ) (cur : ℤ) (t : ℚ) (acc : List Note),
      chainedFrom 0 acc → t = sumDur acc →
      chainedFrom 0 ((emitNotes f low high durs i cur t acc).2.2.2) ∧
      (emitNotes f low high durs i cur t acc).2.2.1 =
        sumDur ((emitNotes f low high durs i cur t acc).2.2.2) := by
  intro durs
  induction durs with
  | nil => intro i cur t acc hch ht; exact ⟨hch, ht⟩
  | cons frac rest ih =>
    intro i cur t acc hch ht
    rw [emitNotes_cons]
    apply ih
    · apply chainedFrom_snoc acc 0 _ hch
      show t = 0 + sumDur acc
      rw [ht]; ring
    · rw [sumDur_snoc]
      show t + frac * 4 = sumDur acc + frac * 4
      rw [ht]

theorem clamp_range (n lo hi : ℤ) (h : lo ≤ hi) :
    lo ≤ clamp n lo hi ∧ clamp n lo hi ≤ hi := by
  unfold clamp
  exact ⟨le_max_left _ _, max_le h (min_le_left _ _)⟩

theorem range_if (c lo hi : ℤ) (h : lo ≤ hi) (j : ℕ) :
    lo ≤ (if c < lo ∨ c > hi then (clamp c lo hi, j) else (c, j)).1 ∧
    (if c < lo ∨ c > hi then (clamp c lo hi, j) else (c, j)).1 ≤ hi := by
  split_ifs with hc
  · exact clamp_range _ _ _ h
  · push_neg at hc
    exact ⟨hc.1, hc.2⟩

theorem nextMidi_range (f : ℕ → ℚ) (i : ℕ) (cur lo hi : ℤ) (h : lo ≤ hi) :
    lo ≤ (nextMidi f i cur lo hi).1 ∧ (nextMidi f i cur lo hi).1 ≤ hi := by
  unfold nextMidi
  dsimp only
  exact range_if _ _ _ h _

theorem emitNotes_range (f : ℕ → ℚ) (lo hi : ℤ) (h : lo ≤ hi) :
    ∀ (durs : List ℚ) (i : ℕ) (cur : ℤ) (t : ℚ) (acc : List Note),
      (∀ n ∈ acc, lo ≤ n.midi ∧ n.midi ≤ hi) →
      ∀ n ∈ (emitNotes f lo hi durs i cur t acc).2.2.2,
        lo ≤ n.midi ∧ n.midi ≤ hi := by
  intro durs
  induction durs with
  | nil => intro i cur t acc hacc; exact hacc
  | cons frac rest ih =>
    intro i cur t acc hacc
    rw [emitNotes_cons]
    apply ih
    intro n hn
    rcases List.mem_append.mp hn with hn | hn
    · exact hacc n hn
    · rw [List.mem_singleton.mp hn]
      exact nextMidi_range f i cur lo hi h

theorem genBars_chained (fuel : ℕ) (f : ℕ → ℚ) (lo hi : ℤ) :
    ∀ (bars i : ℕ) (cur : ℤ) (t : ℚ) (acc mel : List Note),
      chainedFrom 0 acc → t = sumDur acc →
      genBars fuel f lo hi bars i cur t acc = some mel →
      chainedFrom 0 mel := by
  intro bars
  induction bars with
  | zero =>
    intro i cur t acc mel hch ht hg
    simp only [genBars, Option.some.injEq] at hg
    exact hg ▸ hch
  | succ bars ih =>
    intro i cur t acc mel hch ht hg
    cases hMD : generateMeasureDurations fuel f i RHYTHM_POOL with
    | none => rw [genBars, hMD] at hg; exact absurd hg (by simp)
    | some pr =>
      obtain ⟨durs, i'⟩ := pr
      rw [genBars, hMD] at hg
      dsimp only at hg
      rcases hE : emitNotes f lo hi durs i' cur t acc with ⟨i2, cur2, t2, acc2⟩
      rw [hE] at hg
      obtain ⟨hch2, ht2⟩ := emitNotes_chained f lo hi durs i' cur t acc hch ht
      rw [hE] at hch2 ht2
      exact ih i2 cur2 t2 acc2 mel hch2 ht2 hg

theorem genBars_range (fuel : ℕ) (f : ℕ → ℚ) (lo hi : ℤ) (h : lo ≤ hi) :
    ∀ (bars i : ℕ) (cur : ℤ) (t : ℚ) (acc mel : List Note),
      (∀ n ∈ acc, lo ≤ n.midi ∧ n.midi ≤ hi) →
      genBars fuel f lo hi bars i cur t acc = some mel →
      ∀ n ∈ mel, lo ≤ n.midi ∧ n.midi ≤ hi := by
  intro bars
  induction bars with
  | zero =>
    intro i cur t acc mel hacc hg
    simp only [genBars, Option.some.injEq] at hg
    exact hg ▸ hacc
  | succ bars ih =>
    intro i cur t acc mel hacc hg
    cases hMD : generateMeasureDurations fuel f i RHYTHM_POOL with
    | none => rw [genBars, hMD] at hg; exact absurd hg (by simp)
    | some pr =>
      obtain ⟨durs, i'⟩ := pr
      rw [genBars, hMD] at hg
      dsimp only at hg
      rcases hE : emitNotes f lo hi durs i' cur t acc with ⟨i2, cur2, t2, acc2⟩
      rw [hE] at hg
      have hacc2 := emitNotes_range f lo hi h durs i' cur t acc hacc
      rw [hE] at hacc2
      exact ih i2 cur2 t2 acc2 mel hacc2 hg

theorem genBars_count (f : ℕ → ℚ) (hf : validRand f) (lo hi : ℤ) (fuel : ℕ)
    (hfuel : 17 ≤ fuel) :
    ∀ (bars i : ℕ) (cur : ℤ) (t : ℚ) (acc : List Note),
      ∃ mel, genBars fuel f lo hi bars i cur t acc = some mel ∧
        acc.length + bars ≤ mel.length := by
  intro bars
  induction bars with
  | zero => intro i cur t acc; exact ⟨acc, rfl, by omega⟩
  | succ bars ih =>
    intro i cur t acc
    obtain ⟨ds, i', hMD, hsum, hne⟩ :=
      generateMeasureDurations_default f hf fuel hfuel i
    rcases hE : emitNotes f lo hi ds i' cur t acc with ⟨i2, cur2, t2, acc2⟩
    obtain ⟨mel, hg, hlen⟩ := ih i2 cur2 t2 acc2
    refine ⟨mel, ?_, ?_⟩
    · rw [genBars, hMD]
      dsimp only
      rw [hE]
      exact hg
    · have hlen2 : acc2.length = acc.length + ds.length := by
        have hL := emitNotes_length f lo hi ds i' cur t acc
        rw [hE] at hL
        exact hL
      have hpos : 1 ≤ ds.length := List.length_pos.mpr hne
      omega

theorem chainedFrom_getD :
    ∀ (l : List Note) (s : ℚ), chainedFrom s l →
      ∀ j : ℕ, j + 1 < l.length →
        (l.getD (j + 1) default).startBeats
          = (l.getD j default).startBeats + (l.getD j default).durationBeats := by
  intro l
  induction l with
  | nil => intro s _ j hj; simp at hj
  | cons n rest ih =>
    intro s hch j hj
    obtain ⟨h1, h2⟩ := hch
    cases j with
    | zero =>
      cases rest with
      | nil => simp at hj
      | cons m r2 =>
        obtain ⟨hm1, _⟩ := h2
        simp only [List.getD_cons_succ, List.getD_cons_zero]
        rw [hm1, h1]
    | succ j' =>
      have hr := ih (s + n.durationBeats) h2 j' (by simpa using hj)
      simpa using hr

theorem chainedFrom_head :
    ∀ (l : List Note), chainedFrom 0 l → l ≠ [] →
      (l.getD 0 default).startBeats = 0 := by
  intro l hch hne
  cases l with
  | nil => exact absurd rfl hne
  | cons n rest => exact hch.1

end RandomMelody

namespace RandomMelody

theorem sum_map_mul_four (l : List ℚ) :
    (l.map fun d => d * 4).sum = l.sum * 4 := by
  induction l with
  | nil => simp
  | cons a t ih =>
    simp [ih]
    ring

theorem clamp_eq_hardClamp (c lo hi : ℤ) (h : lo ≤ hi) :
    clamp c lo hi = hardClamp c lo hi := by
  unfold clamp hardClamp
  simp only [max_def, min_def]
  split_ifs <;> omega

/-! ## Claims -/

/-- C1: for a fixed non-empty seed and fixed parameters, the melody does not
depend on the ambient entropy source at all: two independent runs (modelled
by two arbitrary ambient streams) produce the identical list of
(pitch, name, start, duration) events. -/
theorem melody_determinism (fuel : ℕ) (a1 a2 : ℕ → ℚ) (p : Params)
    (s : List ℕ) (hs : p.seed = some s) (hne : s ≠ []) :
    generateMelody fuel a1 p = generateMelody fuel a2 p := by
  unfold generateMelody makePRNG
  rw [hs]
  simp [hne]

theorem melody_determinism_witness :
    generateMelody 17 rand0 pHello = generateMelody 17 randHalf pHello :=
  melody_determinism 17 rand0 randHalf pHello [104, 101, 108, 108, 111] rfl
    (by decide)

/-- C2: for every valid random source, `generateMeasureDurations` with the
default pool returns, and the returned durations sum to exactly 1 (hence to
exactly 4 beats after the `× 4` conversion). -/
theorem measure_durations_sum_one (f : ℕ → ℚ) (hf : validRand f) (i : ℕ) :
    (generateMeasureDurations 17 f i RHYTHM_POOL).isSome = true ∧
    ∀ ds i', generateMeasureDurations 17 f i RHYTHM_POOL = some (ds, i') →
      ds.sum = 1 ∧ (ds.map fun d => d * 4).sum = 4 := by
  obtain ⟨ds, i', hg, hsum, _⟩ :=
    generateMeasureDurations_default f hf 17 (le_refl 17) i
  constructor
  · rw [hg]; rfl
  · intro ds0 i0 h0
    rw [hg, Option.some.injEq, Prod.mk.injEq] at h0
    obtain ⟨h1, _⟩ := h0
    subst h1
    refine ⟨hsum, ?_⟩
    rw [sum_map_mul_four, hsum]
    norm_num

theorem measure_durations_sum_one_witness :
    ([(1 : ℚ)].sum = 1 ∧ (([(1 : ℚ)]).map fun d => d * 4).sum = 4) :=
  (measure_durations_sum_one rand0 validRand_rand0 0).2 [1] 1
    (by with_unfolding_all decide)

/-- C3: when `low ≤ high`, every event of a generated melody has its pitch in
`[low, high]`; the initial pitch `clamp 60 low high` is in range, and every
pitch `nextMidi` returns is in range. -/
theorem melody_pitch_range (fuel : ℕ) (ambient : ℕ → ℚ) (p : Params)
    (hlh : p.lowMidi ≤ p.highMidi) (mel : List Note)
    (hm : generateMelody fuel ambient p = some mel) :
    (∀ n ∈ mel, p.lowMidi ≤ n.midi ∧ n.midi ≤ p.highMidi) ∧
    (p.lowMidi ≤ clamp 60 p.lowMidi p.highMidi ∧
      clamp 60 p.lowMidi p.highMidi ≤ p.highMidi) ∧
    (∀ (g : ℕ → ℚ) (j : ℕ) (cur : ℤ),
      p.lowMidi ≤ (nextMidi g j cur p.lowMidi p.highMidi).1 ∧
      (nextMidi g j cur p.lowMidi p.highMidi).1 ≤ p.highMidi) := by
  unfold generateMelody at hm
  refine ⟨?_, clamp_range 60 _ _ hlh, fun g j cur => nextMidi_range g j cur _ _ hlh⟩
  exact genBars_range fuel (makePRNG p.seed ambient) p.lowMidi p.highMidi hlh
    p.measures 0 (clamp 60 p.lowMidi p.highMidi) 0 [] mel (by simp) hm

theorem melody_pitch_range_witness :
    p0.lowMidi ≤ (nextMidi rand0 0 60 p0.lowMidi p0.highMidi).1 ∧
    (nextMidi rand0 0 60 p0.lowMidi p0.highMidi).1 ≤ p0.highMidi :=
  (melody_pitch_range 17 rand0 p0 (by with_unfolding_all decide) mel0
    (by with_unfolding_all decide)).2.2 rand0 0 60

/-- C4: the events of every generated melody are contiguous — each event
starts where the previous one ended — and the first event starts at 0. -/
theorem melody_contiguity (fuel : ℕ) (ambient : ℕ → ℚ) (p : Params)
    (mel : List Note) (hm : generateMelody fuel ambient p = some mel) :
    chainedFrom 0 mel ∧
    (∀ j : ℕ, j + 1 < mel.length →
      (mel.getD (j + 1) default).startBeats
        = (mel.getD j default).startBeats + (mel.getD j default).durationBeats) ∧
    (mel ≠ [] → (mel.getD 0 default).startBeats = 0) := by
  unfold generateMelody at hm
  have hch : chainedFrom 0 mel := by
    apply genBars_chained fuel (makePRNG p.seed ambient) p.lowMidi p.highMidi
      p.measures 0 (clamp 60 p.lowMidi p.highMidi) 0 [] mel trivial ?_ hm
    simp [sumDur]
  exact ⟨hch, chainedFrom_getD mel 0 hch, chainedFrom_head mel hch⟩

theorem melody_contiguity_witness :
    (mel0.getD 0 default).startBeats = 0 :=
  (melody_contiguity 17 rand0 p0 mel0 (by with_unfolding_all decide)).2.2
    (by with_unfolding_all decide)

/-- C5: `nextMidi` draws once to pick step vs leap (threshold 0.8), draws a
second time to pick the delta uniformly (quarter intervals of `[0,1)` map to
the four entries of the respective table), and hard-clamps an out-of-range
candidate to the nearest bound (no reflection). -/
theorem nextMidi_step_leap_clamp (f : ℕ → ℚ) (i : ℕ) (cur low high : ℤ)
    (hlh : low ≤ high) (h0 : 0 ≤ f (i + 1)) (h1 : f (i + 1) < 1) :
    (⌊f (i + 1) * 4⌋).toNat < 4 ∧
    (∀ m : ℕ, m < 4 → (m : ℚ) / 4 ≤ f (i + 1) → f (i + 1) < ((m : ℚ) + 1) / 4 →
      (⌊f (i + 1) * 4⌋).toNat = m) ∧
    (f i < 8/10 →
      stepChoices.getD (⌊f (i + 1) * 4⌋).toNat 0 ∈ stepChoices ∧
      nextMidi f i cur low high =
        (hardClamp (cur + stepChoices.getD (⌊f (i + 1) * 4⌋).toNat 0) low high,
          i + 2)) ∧
    (¬ f i < 8/10 →
      leapChoices.getD (⌊f (i + 1) * 4⌋).toNat 0 ∈ leapChoices ∧
      nextMidi f i cur low high =
        (hardClamp (cur + leapChoices.getD (⌊f (i + 1) * 4⌋).toNat 0) low high,
          i + 2)) := by
  have hcast : (((4 : ℕ)) : ℚ) = (4 : ℚ) := by norm_num
  have hidx : (⌊f (i + 1) * 4⌋).toNat < 4 := by
    have h := floor_toNat_lt h0 h1 (show (0 : ℕ) < 4 by norm_num)
    rwa [hcast] at h
  have hbr : ∀ d : ℤ,
      (if cur + d < low ∨ cur + d > high then (clamp (cur + d) low high, i + 2)
        else (cur + d, i + 2)) = (hardClamp (cur + d) low high, i + 2) := by
    intro d
    by_cases hc : cur + d < low ∨ cur + d > high
    · rw [if_pos hc, clamp_eq_hardClamp _ _ _ hlh]
    · rw [if_neg hc]
      push_neg at hc
      unfold hardClamp
      rw [if_neg (by omega), if_neg (by omega)]
  have hslen : ((stepChoices.length : ℕ) : ℚ) = (4 : ℚ) := by
    simp [stepChoices]
  have hllen : ((leapChoices.length : ℕ) : ℚ) = (4 : ℚ) := by
    simp [leapChoices]
  refine ⟨hidx, ?_, ?_, ?_⟩
  · intro m hm hml hmr
    have hfl : ⌊f (i + 1) * 4⌋ = (m : ℤ) := by
      rw [Int.floor_eq_iff]
      constructor
      · push_cast
        linarith
      · push_cast
        linarith
    rw [hfl]
    simp
  · intro hstep
    constructor
    · apply getD_mem_of_lt
      simpa [stepChoices] using hidx
    · unfold nextMidi
      dsimp only
      rw [hslen, if_pos hstep]
      exact hbr _
  · intro hleap
    constructor
    · apply getD_mem_of_lt
      simpa [leapChoices] using hidx
    · unfold nextMidi
      dsimp only
      rw [hllen, if_neg hleap]
      exact hbr _

theorem nextMidi_step_leap_clamp_witness :
    stepChoices.getD (⌊rand0 (0 + 1) * 4⌋).toNat 0 ∈ stepChoices ∧
    nextMidi rand0 0 60 55 76 =
      (hardClamp (60 + stepChoices.getD (⌊rand0 (0 + 1) * 4⌋).toNat 0) 55 76,
        0 + 2) :=
  (nextMidi_step_leap_clamp rand0 0 60 55 76 (by with_unfolding_all decide)
    (by with_unfolding_all decide) (by with_unfolding_all decide)).2.2.1
    (by with_unfolding_all decide)

/-- C6: with any valid random source and the default pool, the partition loop
terminates: with fuel at least 17 (one more than the 16 iterations the
smallest pool value can ever force) `generateMeasureDurations` returns. -/
theorem rhythm_loop_terminates (f : ℕ → ℚ) (hf : validRand f) (fuel : ℕ)
    (hfuel : 17 ≤ fuel) (i : ℕ) :
    (generateMeasureDurations fuel f i RHYTHM_POOL).isSome = true := by
  obtain ⟨ds, i', hg, _, _⟩ :=
    generateMeasureDurations_default f hf fuel hfuel i
  rw [hg]
  rfl

theorem rhythm_loop_terminates_witness :
    (generateMeasureDurations 17 rand0 0 RHYTHM_POOL).isSome = true :=
  rhythm_loop_terminates rand0 validRand_rand0 17 (le_refl 17) 0

/-- C7: `beatsToDurationString` maps the seven tabulated beat values to their
tokens, and every other value `b` to `"T"` followed by `round (b * 128)`;
in particular `1.5 ↦ "d4"` and `0.375 ↦ "T48"`. -/
theorem beats_duration_table :
    beatsToDurationString 0 = "T0" ∧
    beatsToDurationString (1/2) = "8" ∧
    beatsToDurationString 1 = "4" ∧
    beatsToDurationString (3/2) = "d4" ∧
    beatsToDurationString 2 = "2" ∧
    beatsToDurationString 3 = "d2" ∧
    beatsToDurationString 4 = "1" ∧
    (∀ b : ℚ, b ∉ tableBeats →
      beatsToDurationString b = "T" ++ toString (round (b * 128))) ∧
    beatsToDurationString (3/8) = "T48" := by
  refine ⟨?_, ?_, ?_, ?_, ?_, ?_, ?_, ?_, ?_⟩
  · with_unfolding_all decide
  · with_unfolding_all decide
  · with_unfolding_all decide
  · with_unfolding_all decide
  · with_unfolding_all decide
  · with_unfolding_all decide
  · with_unfolding_all decide
  · intro b hb
    simp only [tableBeats, List.mem_cons, List.not_mem_nil, or_false,
      not_or] at hb
    obtain ⟨hb0, hb1, hb2, hb3, hb4, hb5, hb6⟩ := hb
    unfold beatsToDurationString
    rw [if_neg hb0, if_neg hb1, if_neg hb2, if_neg hb3, if_neg hb4,
      if_neg hb5, if_neg hb6]
  · with_unfolding_all decide

theorem beats_duration_table_witness :
    ((3/8 : ℚ) ∉ tableBeats ∧
      beatsToDurationString (3/8) = "T" ++ toString (round ((3/8 : ℚ) * 128))) :=
  ⟨by with_unfolding_all decide,
    beats_duration_table.2.2.2.2.2.2.2.1 (3/8) (by with_unfolding_all decide)⟩

/-- C8: with a valid random source and at least one measure, the melody has
at least `measures` events, since every call of the partitioner returns a
non-empty duration list. -/
theorem melody_event_count (ambient : ℕ → ℚ) (p : Params) (mel : List Note)
    (hf : validRand (makePRNG p.seed ambient)) (_hmeas : 1 ≤ p.measures)
    (hm : generateMelody 17 ambient p = some mel) :
    p.measures ≤ mel.length ∧
    ∀ i : ℕ,
      (generateMeasureDurations 17 (makePRNG p.seed ambient) i
        RHYTHM_POOL).isSome = true ∧
      ∀ ds i', generateMeasureDurations 17 (makePRNG p.seed ambient) i
          RHYTHM_POOL = some (ds, i') → ds ≠ [] := by
  constructor
  · obtain ⟨mel2, hg2, hlen2⟩ :=
      genBars_count (makePRNG p.seed ambient) hf p.lowMidi p.highMidi 17
        (le_refl 17) p.measures 0 (clamp 60 p.lowMidi p.highMidi) 0 []
    unfold generateMelody at hm
    have hmm : some mel2 = some mel := hg2.symm.trans hm
    obtain rfl : mel2 = mel := Option.some.inj hmm
    simpa using hlen2
  · intro i
    obtain ⟨ds, i', hgd, _, hne⟩ :=
      generateMeasureDurations_default (makePRNG p.seed ambient) hf 17
        (le_refl 17) i
    constructor
    · rw [hgd]; rfl
    · intro ds0 i0 h0
      rw [hgd, Option.some.injEq, Prod.mk.injEq] at h0
      obtain ⟨h1, _⟩ := h0
      exact h1 ▸ hne

theorem melody_event_count_witness : p0.measures ≤ mel0.length :=
  (melody_event_count rand0 p0 mel0 validRand_rand0
    (by with_unfolding_all decide) (by with_unfolding_all decide)).1

/-- C9: with the default pool and a valid random source both corrective
branches are dead: the loop agrees with its safety-net-free variant (the
candidate subset is never empty), and the loop output already sums to 1, so
the final snapping adjustment is the identity. -/
theorem safety_net_unreachable (f : ℕ → ℚ) (hf : validRand f) (i : ℕ) :
    loopGo f RHYTHM_POOL 17 i 0 [] = loopGoStrict f RHYTHM_POOL 17 i 0 [] ∧
    (loopGoStrict f RHYTHM_POOL 17 i 0 []).isSome = true ∧
    ∀ ds i', loopGo f RHYTHM_POOL 17 i 0 [] = some (ds, i') →
      snapDurations ds = ds ∧ ds.sum = 1 := by
  obtain ⟨ds, i', h1, h2, h3, _⟩ := measure_default f hf 17 (le_refl 17) i
  refine ⟨h1.trans h2.symm, ?_, ?_⟩
  · rw [h2]; rfl
  · intro ds0 i0 h0
    rw [h1, Option.some.injEq, Prod.mk.injEq] at h0
    obtain ⟨ha, _⟩ := h0
    subst ha
    exact ⟨snapDurations_of_sum_one h3, h3⟩

theorem safety_net_unreachable_witness :
    loopGo rand0 RHYTHM_POOL 17 0 0 []
      = loopGoStrict rand0 RHYTHM_POOL 17 0 0 [] :=
  (safety_net_unreachable rand0 validRand_rand0 0).1

/-- C10: an explicitly supplied empty seed string is falsy, so `makePRNG`
returns the ambient fallback source unchanged, and two runs with the empty
seed but different ambient entropy can produce different melodies. -/
theorem empty_seed_fallback :
    (∀ ambient : ℕ → ℚ, makePRNG (some []) ambient = ambient) ∧
    pEmptySeed.seed = some [] ∧
    generateMelody 17 rand0 pEmptySeed ≠ generateMelody 17 randHalf pEmptySeed := by
  refine ⟨fun ambient => rfl, rfl, ?_⟩
  with_unfolding_all decide

theorem empty_seed_fallback_witness :
    makePRNG (some []) rand0 = rand0 :=
  empty_seed_fallback.1 rand0

end RandomMelody
